import Mathlib

/-
Shallow embedding of the go-lsystems package (examples3.go, package `lsystems`).

Numbers: the Go package computes with float64. All of the arithmetic that the
claims exercise is exact (integer steps of +-1, comparisons of headings that are
multiples of 90, the fixed nudge constant 2), so the embedding models float64
values by exact rationals. `Q` is an executable unreduced-fraction rational
(numerator : Int, positive denominator : PNat); all of its operations reduce in
the kernel, so concrete runs can be settled by `decide` or `rfl`. The functions
`math.Cos(h * degs2rads)` and `math.Sin(h * degs2rads)` are modelled by opaque
function parameters `cosD sinD : Q -> Q` (argument in degrees); no claim input
ever reaches the branch that calls them, and theorems quantify over them.

Strings are modelled as `List Char` (the Go code indexes strings byte by byte;
every symbol the package supports is ASCII, so character-level and byte-level
traversal agree, and a non-ASCII byte hits the same fatal-error branch either
way). A Go `log.Fatalln` (via `halt`) and a Go runtime panic (out-of-range
index) are both modelled as `none`: the operation produces no result.
-/

/-- Exact rational: an unreduced fraction with a positive denominator.
Models the real value held by a Go float64 in the computations the claims
exercise (where every float operation performed is exact). -/
structure Q where
  num : ℤ
  den : ℕ+
deriving DecidableEq

def Q.ofInt (n : ℤ) : Q := ⟨n, 1⟩

def Q.add (a b : Q) : Q := ⟨a.num * (b.den : ℤ) + b.num * (a.den : ℤ), a.den * b.den⟩

def Q.neg (a : Q) : Q := ⟨-a.num, a.den⟩

def Q.sub (a b : Q) : Q := Q.add a (Q.neg b)

def Q.mul (a b : Q) : Q := ⟨a.num * b.num, a.den * b.den⟩

/-- Value equality of fractions (the meaning of `==` on the float values). -/
def Q.beq (a b : Q) : Bool := a.num * (b.den : ℤ) == b.num * (a.den : ℤ)

/-- Value comparison (the meaning of `<=` on the float values). -/
def Q.ble (a b : Q) : Bool := decide (a.num * (b.den : ℤ) ≤ b.num * (a.den : ℤ))

/-- Strict value comparison. -/
def Q.blt (a b : Q) : Bool := decide (a.num * (b.den : ℤ) < b.num * (a.den : ℤ))

/-- `math.Min`. -/
def Q.min (a b : Q) : Q := if Q.ble a b then a else b

/-- `math.Max`. -/
def Q.max (a b : Q) : Q := if Q.ble a b then b else a

/-- `math.Abs`. -/
def Q.abs (a : Q) : Q := ⟨|a.num|, a.den⟩

/-- Truncation toward zero of `h / 360`, as in the implicit division performed
by `math.Mod(h, 360.)` (Go's Mod truncates the quotient toward zero). -/
def goTrunc360 (h : Q) : ℤ := Int.tdiv h.num (360 * (h.den : ℤ))

/-- `math.Mod(h, 360.)`: the remainder has the sign of `h`. -/
def goMod360 (h : Q) : Q := Q.sub h (Q.mul (Q.ofInt 360) (Q.ofInt (goTrunc360 h)))

/-- One left-to-right pass of `strings.NewReplacer("+-", "", "-+", "").Replace`:
at each position the two-character patterns are tried; on a match both
characters are dropped and scanning resumes after them (replaced text is not
rescanned), otherwise the character is emitted. Used by the geometry compilers
and by `calcXoffset` to "remove pointless turns". -/
def removePairs : List Char → List Char
  | [] => []
  | [c] => [c]
  | c1 :: c2 :: rest =>
    if (c1 = '+' ∧ c2 = '-') ∨ (c1 = '-' ∧ c2 = '+') then removePairs rest
    else c1 :: removePairs (c2 :: rest)

/-- `true` iff the string contains no immediately adjacent cancelling turn
pair. -/
def noCancelPair : List Char → Bool
  | c1 :: c2 :: rest =>
    !((c1 == '+' && c2 == '-') || (c1 == '-' && c2 == '+')) && noCancelPair (c2 :: rest)
  | _ => true

/-
Stochastic engine (`func Stochastic`, examples3.go lines 246-293).

Randomness: the package draws from Go's process-global `math/rand` generator,
seeded from the clock in the package `init` (lines 725-737); `Stochastic` takes
no seed. `RandState` models the global generator: `stream` is the infinite
sequence of raw draws it will produce and `idx` is how far the process has
already consumed it; `rand.Intn(n)` yields `stream idx % n` and advances `idx`.
-/
structure RandState where
  stream : Nat → Nat
  idx : Nat

/-- `rand.Intn n` against the modelled global generator state. -/
def randIntn (n : Nat) (r : RandState) : Nat × RandState :=
  (r.stream r.idx % n, ⟨r.stream, r.idx + 1⟩)

/-- The selector pool: for every weight `w_k` (including any beyond the length
of the rules list), `w_k.toNat` copies of the index `k` (lines 270-277). -/
def buildSelectorsAux : Nat → List Int → List Nat
  | _, [] => []
  | k, w :: ws => List.replicate w.toNat k ++ buildSelectorsAux (k + 1) ws

def buildSelectors (weights : List Int) : List Nat := buildSelectorsAux 0 weights

/-- One generation of the stochastic rewrite (lines 282-290): scan left to
right; every `F` is replaced by `rules[selectors[rand.Intn(len(selectors))]]`
(an out-of-range rule index is the Go runtime panic, modelled `none`); every
other symbol is copied. -/
def stochOne (rules : List (List Char)) (selectors : List Nat) :
    List Char → RandState → Option (List Char) × RandState
  | [], r => (some [], r)
  | c :: cs, r =>
    if c = 'F' then
      let dr := randIntn selectors.length r
      match selectors.get? dr.1 with
      | none => (none, dr.2)
      | some k =>
        match rules.get? k with
        | none => (none, dr.2)
        | some rep =>
          match stochOne rules selectors cs dr.2 with
          | (some rest, r2) => (some (rep ++ rest), r2)
          | (none, r2) => (none, r2)
    else
      match stochOne rules selectors cs r with
      | (some rest, r2) => (some (c :: rest), r2)
      | (none, r2) => (none, r2)

/-- `order` successive generations (lines 281-291). -/
def stochRun (rules : List (List Char)) (selectors : List Nat) :
    Nat → List Char → RandState → Option (List Char) × RandState
  | 0, s, r => (some s, r)
  | n + 1, s, r =>
    match stochOne rules selectors s r with
    | (some s2, r2) => stochRun rules selectors n s2 r2
    | (none, r2) => (none, r2)

/-- `func Stochastic(order, axiom, rules, weights)` with the global generator
state made explicit. The validations (lines 262-273) are the Go `halt` calls:
empty axiom/rules/weights, fewer weights than rules, or a non-positive weight
are fatal, modelled `none`. -/
def Stochastic (order : Nat) (axm : List Char) (rules : List (List Char))
    (weights : List Int) (r : RandState) : Option (List Char) × RandState :=
  if axm = [] ∨ rules = [] ∨ weights = [] ∨ weights.length < rules.length
     ∨ ¬ (∀ w ∈ weights, (0 : ℤ) < w) then (none, r)
  else stochRun rules (buildSelectors weights) order axm r

/-- Two modelled generator states that will produce the same forward stream of
raw draws (for example the global generator immediately after two identical
`rand.Seed` calls). -/
def alignedFrom (g g2 : RandState) : Prop :=
  ∀ k, g.stream (g.idx + k) = g2.stream (g2.idx + k)

/-
Contextual engine (`func HogewegHesper`, lines 294-362, with the coroutines
`getContextLHS` / `getContextRHS`, lines 1039-1097).
-/

/-- The inner bracket-skipping loop of `getContextLHS` (lines 1049-1055),
operating here on the reversed left part: consume characters, `]` raising and
`[` lowering the unmatched count, until it reaches 0; running past the start of
the string is the Go out-of-range panic (`none`). -/
def lhsSkip : Nat → List Char → Option (List Char)
  | _, [] => none
  | bal, c :: cs =>
    let bal2 := if c = '[' then bal - 1 else if c = ']' then bal + 1 else bal
    if bal2 = 0 then some cs else lhsSkip bal2 cs

/-- The inner bracket-skipping loop of `getContextRHS` (lines 1079-1085). -/
def rhsSkip : Nat → List Char → Option (List Char)
  | _, [] => none
  | bal, c :: cs =>
    let bal2 := if c = '[' then bal + 1 else if c = ']' then bal - 1 else bal
    if bal2 = 0 then some cs else rhsSkip bal2 cs

/-- `getContextLHS` scanned right-to-left over the part left of the symbol,
presented here as that part reversed. `fuel` bounds the recursion (every step
consumes at least one character, so the list's length suffices); running out of
characters yields the empty context. A symbol outside the supported set is the
Go `halt` (`none`). -/
def ctxLHSLoop : Nat → List Char → Option (List Char)
  | _, [] => some []
  | 0, _ :: _ => none
  | fuel + 1, c :: cs =>
    if c = 'F' ∨ c = '+' ∨ c = '-' ∨ c = '$' ∨ c = '[' then ctxLHSLoop fuel cs
    else if c = ']' then
      match lhsSkip 1 cs with
      | none => none
      | some cs2 => ctxLHSLoop fuel cs2
    else if c = '0' ∨ c = '1' then some [c]
    else none

/-- `getContextLHS` applied to the reversed prefix (the characters left of the
current symbol, nearest first). -/
def getContextLHSrev (rev : List Char) : Option (List Char) := ctxLHSLoop rev.length rev

/-- `getContextRHS` (lines 1068-1097): scan forward; `]` (top of the current
branch) yields the empty context; `[` skips a whole side branch. -/
def ctxRHSLoop : Nat → List Char → Option (List Char)
  | _, [] => some []
  | 0, _ :: _ => none
  | fuel + 1, c :: cs =>
    if c = 'F' ∨ c = '+' ∨ c = '-' ∨ c = '$' then ctxRHSLoop fuel cs
    else if c = ']' then some []
    else if c = '[' then
      match rhsSkip 1 cs with
      | none => none
      | some cs2 => ctxRHSLoop fuel cs2
    else if c = '0' ∨ c = '1' then some [c]
    else none

def getContextRHS (sfx : List Char) : Option (List Char) := ctxRHSLoop sfx.length sfx

/-- `fmt.Sprintf("%s < %s > %s", lhs, symbol, rhs)` (line 347). -/
def mkKey (l : List Char) (c : Char) (r : List Char) : List Char :=
  l ++ ' ' :: '<' :: ' ' :: c :: ' ' :: '>' :: ' ' :: r

/-- Lookup in the rule table (`rules[context]`; the Go map is modelled as an
association list with distinct keys). -/
def lookupRule : List (List Char × List Char) → List Char → Option (List Char)
  | [], _ => none
  | kv :: rest, key => if kv.1 = key then some kv.2 else lookupRule rest key

/-- The configuration-time key check `^(0|1) < (0|1) > (0|2)$`-style regex of
line 320: exactly `"L < a > R"` with `L`, `a`, `R` each `0` or `1`. -/
def keyValid : List Char → Bool
  | [a, s1, lt, s2, b, s3, gt, s4, c] =>
    (a == '0' || a == '1') && (s1 == ' ') && (lt == '<') && (s2 == ' ') &&
    (b == '0' || b == '1') && (s3 == ' ') && (gt == '>') && (s4 == ' ') &&
    (c == '0' || c == '1')
  | _ => false

/-- The whole rule-table validation of lines 319-323: every key matches the
triple pattern and every replacement is non-empty. -/
def rulesValid (rules : List (List Char × List Char)) : Bool :=
  rules.all fun kv => keyValid kv.1 && !kv.2.isEmpty

/-- The `case "0", "1"` branch of the derivation loop (lines 344-352): compute
both contexts (either scan can hit the Go panic, `none`), build the triple key,
and substitute the table entry, keeping the symbol itself on a missed lookup. -/
def hhRewriteVar (rules : List (List Char × List Char)) (rev : List Char) (c : Char)
    (sfx : List Char) : Option (List Char) :=
  match getContextLHSrev rev, getContextRHS sfx with
  | some l, some r => some ((lookupRule rules (mkKey l c r)).getD [c])
  | _, _ => none

/-- One generation of the contextual rewrite (lines 334-356). `rev` is the
reversed already-scanned prefix of the current generation's string (the Go code
passes `TurtleCmds[:pos]` and `TurtleCmds[pos+1:]` to the context coroutines).
`F [ ] $` are copied, `+` and `-` swap, `0`/`1` go through the rule table, and
any other symbol is the fatal unsupported-symbol error. -/
def hhScan (rules : List (List Char × List Char)) : List Char → List Char → Option (List Char)
  | _, [] => some []
  | rev, c :: rest =>
    if c = 'F' ∨ c = '[' ∨ c = ']' ∨ c = '$' then
      (hhScan rules (c :: rev) rest).map (c :: ·)
    else if c = '+' then (hhScan rules (c :: rev) rest).map ('-' :: ·)
    else if c = '-' then (hhScan rules (c :: rev) rest).map ('+' :: ·)
    else if c = '0' ∨ c = '1' then
      match hhRewriteVar rules rev c rest with
      | some rep => (hhScan rules (c :: rev) rest).map (rep ++ ·)
      | none => none
    else none

/-- `order` generations of the contextual rewrite. -/
def hhIter (rules : List (List Char × List Char)) : Nat → List Char → Option (List Char)
  | 0, s => some s
  | n + 1, s =>
    match hhScan rules [] s with
    | some s2 => hhIter rules n s2
    | none => none

/-- `func HogewegHesper(order, axiom, rules)`: validate the axiom (line 318)
and the rule table (lines 319-323), then derive. A negative order is excluded
by taking `order : Nat`. -/
def HogewegHesper (order : Nat) (axm : List Char)
    (rules : List (List Char × List Char)) : Option (List Char) :=
  if axm = [] ∨ rulesValid rules = false then none
  else hhIter rules order axm

/-
Turtle geometry compiler (`makeLogo2Gnuplot`, lines 855-924, with
`makeConvert2Gnuplot`, lines 925-941, and `getHeading`, lines 847-854).
-/

structure Turtle where
  heading : Q
  x : Q
  y : Q
deriving DecidableEq

/-- A primitive produced for gnuplot: a headless arrow for a drawn segment, or
a filled polygon (origin first, then the accumulated vertices; `poly []` stands
for the empty command string Go appends when `}` is met outside polygon
mode). -/
inductive PlotCmd where
  | seg (xFrom yFrom xTo yTo : Q)
  | poly (vertices : List (Q × Q))
deriving DecidableEq

/-- The whole mutable state of one `makeLogo2Gnuplot` compilation pass: the
turtle, the branch stack, the closure's bounding-box accumulators, the
polygon accumulator inside `makeConvert2Gnuplot`, and the emitted commands. -/
structure GnuplotState where
  turtle : Turtle
  stack : List Turtle
  xMin : Q
  xMax : Q
  yMin : Q
  yMax : Q
  polyAcc : Option (List (Q × Q))
  cmds : List PlotCmd
deriving DecidableEq

def isDigitCh (c : Char) : Bool := '0' ≤ c && c ≤ '9'

/-- The regex character class `[\+\-0-9.]` of `_reHeading` (line 720). -/
def headingClassCh (c : Char) : Bool := c == '+' || c == '-' || c == '.' || isDigitCh c

def digitsVal (l : List Char) : Nat :=
  l.foldl (fun acc c => 10 * acc + (c.toNat - '0'.toNat)) 0

/-- `strconv.ParseFloat` on a string drawn from the class `[\+\-0-9.]`: an
optional sign, then digits with at most one decimal point and at least one
digit; anything else is a parse error (`none`). The parsed value is exact here
(float64 rounding of the decimal is not modelled; no claim exercises it). -/
def parseGoFloat (l : List Char) : Option Q :=
  let sb : ℤ × List Char :=
    match l with
    | '+' :: t => (1, t)
    | '-' :: t => (-1, t)
    | t => (1, t)
  let ip := sb.2.takeWhile isDigitCh
  match sb.2.drop ip.length with
  | [] => if ip = [] then none else some ⟨sb.1 * digitsVal ip, 1⟩
  | '.' :: frac =>
    if frac.all isDigitCh ∧ (ip ≠ [] ∨ frac ≠ []) then
      some ⟨sb.1 * (digitsVal ip * (10 ^ frac.length : ℕ) + digitsVal frac),
            (10 : ℕ+) ^ frac.length⟩
    else none
  | _ => none

/-- `getHeading` (lines 847-854) at position `pos` of `ws` (the character at
`pos` is `(`): the lazy regex `^\(([\+\-0-9.]+?)\)` takes the run of class
characters after `(` up to a `)`; the returned position is just past the `)`
(the Go function returns the index of `)` and the loop then increments). -/
def parseHeadingAt (ws : List Char) (pos : Nat) : Option (Q × Nat) :=
  let rest := ws.drop (pos + 1)
  let run := rest.takeWhile headingClassCh
  if run = [] then none
  else
    match rest.drop run.length with
    | ')' :: _ => (parseGoFloat run).map (fun q => (q, pos + run.length + 2))
    | _ => none

/-- The characters having a `case` of their own in the geometry compilers'
`switch` (other than `(`); every other character falls to the variable-removal
`default`. -/
def isGeomChar (c : Char) : Bool :=
  c == 'F' || c == 'f' || c == '+' || c == '-' || c == '|' || c == '$' ||
  c == '[' || c == ']' || c == '{' || c == '}'

/-- `makeConvert2Gnuplot`'s handling of a completed `F`/`f` move (lines
934-937), given the position before the move: extend the active polygon with
the new position, or emit a segment for a drawn `F`, or nothing for `f`. -/
def emitMove (c : Char) (xFrom yFrom : Q) (st : GnuplotState) : GnuplotState :=
  match st.polyAcc with
  | some l => { st with polyAcc := some (l ++ [(st.turtle.x, st.turtle.y)]) }
  | none =>
    if c = 'F' then
      { st with cmds := st.cmds ++ [PlotCmd.seg xFrom yFrom st.turtle.x st.turtle.y] }
    else st

/-- The `case "F", "f"` branch (lines 872-896): move one unit; a heading whose
`math.Mod(·, 360)` is exactly one of the eight axis values moves by exactly 1
on that axis (updating only that side of the bounding box); any other heading
falls to the cosine/sine branch and updates all four sides. -/
def moveF (cosD sinD : Q → Q) (c : Char) (st : GnuplotState) : GnuplotState :=
  let t := st.turtle
  let m := goMod360 t.heading
  let st2 :=
    if Q.beq m (Q.ofInt 0) then
      { st with turtle.x := Q.add t.x (Q.ofInt 1),
                xMax := Q.max st.xMax (Q.add t.x (Q.ofInt 1)) }
    else if Q.beq m (Q.ofInt 90) ∨ Q.beq m (Q.ofInt (-270)) then
      { st with turtle.y := Q.add t.y (Q.ofInt 1),
                yMax := Q.max st.yMax (Q.add t.y (Q.ofInt 1)) }
    else if Q.beq m (Q.ofInt 180) ∨ Q.beq m (Q.ofInt (-180)) then
      { st with turtle.x := Q.sub t.x (Q.ofInt 1),
                xMin := Q.min st.xMin (Q.sub t.x (Q.ofInt 1)) }
    else if Q.beq m (Q.ofInt 270) ∨ Q.beq m (Q.ofInt (-90)) then
      { st with turtle.y := Q.sub t.y (Q.ofInt 1),
                yMin := Q.min st.yMin (Q.sub t.y (Q.ofInt 1)) }
    else
      let x2 := Q.add t.x (cosD t.heading)
      let y2 := Q.add t.y (sinD t.heading)
      { st with turtle.x := x2, turtle.y := y2,
                xMin := Q.min st.xMin x2, xMax := Q.max st.xMax x2,
                yMin := Q.min st.yMin y2, yMax := Q.max st.yMax y2 }
  emitMove c t.x t.y st2

/-- The state change of one `switch` dispatch of `makeLogo2Gnuplot` for a
character with its own `case` (lines 871-914, except `(`): `none` is the Go
panic of popping an empty branch stack. -/
def updState (cosD sinD : Q → Q) (angle : Q) (c : Char) (st : GnuplotState) :
    Option GnuplotState :=
  if c = 'F' ∨ c = 'f' then some (moveF cosD sinD c st)
  else if c = '+' then some { st with turtle.heading := Q.add st.turtle.heading angle }
  else if c = '-' then some { st with turtle.heading := Q.sub st.turtle.heading angle }
  else if c = '|' then some { st with turtle.heading := Q.add st.turtle.heading (Q.ofInt 180) }
  else if c = '$' then some { st with turtle.heading := Q.ofInt 90 }
  else if c = '[' then some { st with stack := st.turtle :: st.stack }
  else if c = ']' then
    match st.stack with
    | [] => none
    | t :: rest => some { st with turtle := t, stack := rest }
  else if c = '{' then some { st with polyAcc := some [(st.turtle.x, st.turtle.y)] }
  else if c = '}' then
    some { st with cmds := st.cmds ++ [PlotCmd.poly (st.polyAcc.getD [])], polyAcc := none }
  else none

/-- The compilation loop of `makeLogo2Gnuplot` (lines 867-920) over the working
string `ws` from index `pos`: `(` parses an inline heading, a cased character
updates the state, and any other character (a production variable) removes all
of its instances from the whole working string without advancing. The returned
string is the final value of the caller's string (mutated through the passed
pointer). `fuel` bounds the recursion; `ws.length - pos` strictly decreases at
every step, so the wrapper's `ws.length + 1` can never run out. -/
def logoLoop (cosD sinD : Q → Q) (angle : Q) :
    Nat → List Char → Nat → GnuplotState → Option (List Char × GnuplotState)
  | 0, _, _, _ => none
  | fuel + 1, ws, pos, st =>
    if h : pos < ws.length then
      let c := ws.get ⟨pos, h⟩
      if c = '(' then
        match parseHeadingAt ws pos with
        | none => none
        | some hp =>
          logoLoop cosD sinD angle fuel ws hp.2 { st with turtle.heading := hp.1 }
      else if isGeomChar c then
        match updState cosD sinD angle c st with
        | none => none
        | some st2 => logoLoop cosD sinD angle fuel ws (pos + 1) st2
      else logoLoop cosD sinD angle fuel (ws.filter (fun a => a != c)) pos st
    else some (ws, st)

/-- One invocation of the closure made by `makeLogo2Gnuplot` on a fresh
closure (bounding-box accumulators at 0, as for `Plot`): remove the cancelling
turn pairs once, then interpret from `(xOrigin, 0)` at heading 0. -/
def makeLogo2Gnuplot (cosD sinD : Q → Q) (ws : List Char) (xOrigin : Q) (angle : Q) :
    Option (List Char × GnuplotState) :=
  let ws0 := removePairs ws
  logoLoop cosD sinD angle (ws0.length + 1) ws0 0
    ⟨⟨Q.ofInt 0, xOrigin, Q.ofInt 0⟩, [], Q.ofInt 0, Q.ofInt 0, Q.ofInt 0, Q.ofInt 0, none, []⟩

/-- The value of the exported `TurtleCmds` after `Plot` returns (line 430:
`Plot` passes `&TurtleCmds` with `xOrigin = 0`, so the compilation pass's final
working string is written back to the package-level variable). -/
def plotTurtleCmdsAfter (cosD sinD : Q → Q) (tc : List Char) (angle : Q) :
    Option (List Char) :=
  (makeLogo2Gnuplot cosD sinD tc (Q.ofInt 0) angle).map (fun p => p.1)

/-
Layout planner (`calcXoffset`, lines 771-822, consumed by `MultiPlot` line 534
and `HpglMultiPlot` line 684: `xOrigin = xMax + <-xOffset`).
-/

/-- The dry-run walk state of `calcXoffset`: heading and x only are meaningful
(the y ordinate is carried because branch push/pop saves the whole turtle). -/
structure XState where
  turtle : Turtle
  stack : List Turtle
  xMin : Q
deriving DecidableEq

/-- One cased character of `calcXoffset`'s `switch` (lines 784-816): like the
full compiler's, but only leftward excursions are tracked (`xMin`), a heading
of 90 or 270 does not move, and nothing is emitted. -/
def calcUpd (cosD : Q → Q) (angle : Q) (c : Char) (st : XState) : Option XState :=
  if c = 'F' ∨ c = 'f' then
    let t := st.turtle
    let m := goMod360 t.heading
    some (
      if Q.beq m (Q.ofInt 0) then { st with turtle.x := Q.add t.x (Q.ofInt 1) }
      else if Q.beq m (Q.ofInt 90) ∨ Q.beq m (Q.ofInt (-270)) then st
      else if Q.beq m (Q.ofInt 180) ∨ Q.beq m (Q.ofInt (-180)) then
        { st with turtle.x := Q.sub t.x (Q.ofInt 1),
                  xMin := Q.min st.xMin (Q.sub t.x (Q.ofInt 1)) }
      else if Q.beq m (Q.ofInt 270) ∨ Q.beq m (Q.ofInt (-90)) then st
      else
        { st with turtle.x := Q.add t.x (cosD t.heading),
                  xMin := Q.min st.xMin (Q.add t.x (cosD t.heading)) })
  else if c = '+' then some { st with turtle.heading := Q.add st.turtle.heading angle }
  else if c = '-' then some { st with turtle.heading := Q.sub st.turtle.heading angle }
  else if c = '|' then some { st with turtle.heading := Q.add st.turtle.heading (Q.ofInt 180) }
  else if c = '$' then some { st with turtle.heading := Q.ofInt 90 }
  else if c = '[' then some { st with stack := st.turtle :: st.stack }
  else if c = ']' then
    match st.stack with
    | [] => none
    | t :: rest => some { st with turtle := t, stack := rest }
  else if c = '{' ∨ c = '}' then some st
  else none

/-- The walking loop of `calcXoffset` (lines 782-818), same traversal scheme as
the full compiler's. -/
def calcLoop (cosD : Q → Q) (angle : Q) :
    Nat → List Char → Nat → XState → Option (List Char × XState)
  | 0, _, _, _ => none
  | fuel + 1, ws, pos, st =>
    if h : pos < ws.length then
      let c := ws.get ⟨pos, h⟩
      if c = '(' then
        match parseHeadingAt ws pos with
        | none => none
        | some hp => calcLoop cosD angle fuel ws hp.2 { st with turtle.heading := hp.1 }
      else if isGeomChar c then
        match calcUpd cosD angle c st with
        | none => none
        | some st2 => calcLoop cosD angle fuel ws (pos + 1) st2
      else calcLoop cosD angle fuel (ws.filter (fun a => a != c)) pos st
    else some (ws, st)

/-- One request served by the `calcXoffset` coroutine for the next subplot's
stream: remove turn pairs, walk from x = 0 at heading 0 with a fresh stack. -/
def calcXoffsetRun (cosD : Q → Q) (cmds : List Char) (angle : Q) :
    Option (List Char × XState) :=
  let ws0 := removePairs cmds
  calcLoop cosD angle (ws0.length + 1) ws0 0 ⟨⟨Q.ofInt 0, Q.ofInt 0, Q.ofInt 0⟩, [], Q.ofInt 0⟩

/-- The gap the coroutine sends back (line 819): `math.Abs(xMin) + xNudge`,
with `xNudge = 2`. -/
def calcXoffset (cosD : Q → Q) (cmds : List Char) (angle : Q) : Option Q :=
  (calcXoffsetRun cosD cmds angle).map (fun p => Q.add (Q.abs p.2.xMin) (Q.ofInt 2))

/-- The multi-plot origin update (`MultiPlot` line 534, `HpglMultiPlot` line
684): the next subplot's origin is the xMax returned by the previous
compilation plus the gap computed from the next subplot's own stream. -/
def multiPlotNextOrigin (cosD : Q → Q) (xMax : Q) (nextCmds : List Char)
    (nextAngle : Q) : Option Q :=
  (calcXoffset cosD nextCmds nextAngle).map (fun g => Q.add xMax g)

/-
Pen-plotter emitter (`makeLogo2Hpgl`, lines 942-1008, with
`makeConvert2Hpgl`, lines 1009-1027).
-/

/-- Zero-padded six-digit decimal. -/
def pad6 (n : Nat) : String :=
  let s := Nat.repr n
  String.mk (List.replicate (6 - s.length) '0') ++ s

/-- `fmt.Sprintf("%%f", v)`: sign, integer part, `.`, six decimal digits. The
fraction is rounded half-up on the exact value (Go rounds the binary float64;
the two agree on every value the claims produce, which are small integers). -/
def fmtQ (q : Q) : String :=
  let scaled : Nat := (2 * (q.num.natAbs * 1000000) + (q.den : ℕ)) / (2 * (q.den : ℕ))
  let sgn := if q.num < 0 then "-" else ""
  sgn ++ Nat.repr (scaled / 1000000) ++ "." ++ pad6 (scaled % 1000000)

/-- `makeConvert2Hpgl`'s closure body (lines 1011-1026): `prev` is the retained
`penCmdPrev`; returns the new `penCmdPrev` and the emitted text. A move whose
pen state matches the previous one continues the run with a bare `,x,y`;
otherwise the previous run is terminated and a new `PU`/`PD` run begins. -/
def convHpgl (prev : String) (symbol : Char) (x y : Q) : String × String :=
  let penCmd := if symbol = 'F' then "PD" else "PU"
  if symbol = '{' then ("", ";\nPM0;\n")
  else if symbol = '}' then ("", ";\nPM2;EP;FP;\n")
  else if prev = penCmd then (prev, "," ++ fmtQ x ++ "," ++ fmtQ y)
  else if prev ≠ "" then (penCmd, ";\n" ++ penCmd ++ fmtQ x ++ "," ++ fmtQ y)
  else (penCmd, penCmd ++ fmtQ x ++ "," ++ fmtQ y)

/-- The whole mutable state of one `makeLogo2Hpgl` compilation pass. -/
structure HpglState where
  turtle : Turtle
  stack : List Turtle
  xMin : Q
  xMax : Q
  yMin : Q
  yMax : Q
  prev : String
  out : String
deriving DecidableEq

/-- Append `convert2Hpgl(symbol, x, y)` to the output. -/
def hpglEmit (symbol : Char) (x y : Q) (st : HpglState) : HpglState :=
  let pc := convHpgl st.prev symbol x y
  { st with prev := pc.1, out := st.out ++ pc.2 }

/-- The `case "F", "f"` branch of `makeLogo2Hpgl` (lines 959-980): identical
movement and bounding-box arithmetic to the gnuplot compiler, then the pen
command for the new position. -/
def hpglMoveF (cosD sinD : Q → Q) (c : Char) (st : HpglState) : HpglState :=
  let t := st.turtle
  let m := goMod360 t.heading
  let st2 :=
    if Q.beq m (Q.ofInt 0) then
      { st with turtle.x := Q.add t.x (Q.ofInt 1),
                xMax := Q.max st.xMax (Q.add t.x (Q.ofInt 1)) }
    else if Q.beq m (Q.ofInt 90) ∨ Q.beq m (Q.ofInt (-270)) then
      { st with turtle.y := Q.add t.y (Q.ofInt 1),
                yMax := Q.max st.yMax (Q.add t.y (Q.ofInt 1)) }
    else if Q.beq m (Q.ofInt 180) ∨ Q.beq m (Q.ofInt (-180)) then
      { st with turtle.x := Q.sub t.x (Q.ofInt 1),
                xMin := Q.min st.xMin (Q.sub t.x (Q.ofInt 1)) }
    else if Q.beq m (Q.ofInt 270) ∨ Q.beq m (Q.ofInt (-90)) then
      { st with turtle.y := Q.sub t.y (Q.ofInt 1),
                yMin := Q.min st.yMin (Q.sub t.y (Q.ofInt 1)) }
    else
      let x2 := Q.add t.x (cosD t.heading)
      let y2 := Q.add t.y (sinD t.heading)
      { st with turtle.x := x2, turtle.y := y2,
                xMin := Q.min st.xMin x2, xMax := Q.max st.xMax x2,
                yMin := Q.min st.yMin y2, yMax := Q.max st.yMax y2 }
  hpglEmit c st2.turtle.x st2.turtle.y st2

/-- One cased character of `makeLogo2Hpgl`'s `switch` (lines 958-997, except
`(`); `]` pops and then emits a pen-up move to the restored position. -/
def hpglUpd (cosD sinD : Q → Q) (angle : Q) (c : Char) (st : HpglState) :
    Option HpglState :=
  if c = 'F' ∨ c = 'f' then some (hpglMoveF cosD sinD c st)
  else if c = '+' then some { st with turtle.heading := Q.add st.turtle.heading angle }
  else if c = '-' then some { st with turtle.heading := Q.sub st.turtle.heading angle }
  else if c = '|' then some { st with turtle.heading := Q.add st.turtle.heading (Q.ofInt 180) }
  else if c = '$' then some { st with turtle.heading := Q.ofInt 90 }
  else if c = '[' then some { st with stack := st.turtle :: st.stack }
  else if c = ']' then
    match st.stack with
    | [] => none
    | t :: rest => some (hpglEmit 'f' t.x t.y { st with turtle := t, stack := rest })
  else if c = '{' ∨ c = '}' then some (hpglEmit c st.turtle.x st.turtle.y st)
  else none

/-- The compilation loop of `makeLogo2Hpgl` (lines 954-1003), same traversal
scheme as the gnuplot compiler's. -/
def hpglLoop (cosD sinD : Q → Q) (angle : Q) :
    Nat → List Char → Nat → HpglState → Option (List Char × HpglState)
  | 0, _, _, _ => none
  | fuel + 1, ws, pos, st =>
    if h : pos < ws.length then
      let c := ws.get ⟨pos, h⟩
      if c = '(' then
        match parseHeadingAt ws pos with
        | none => none
        | some hp => hpglLoop cosD sinD angle fuel ws hp.2 { st with turtle.heading := hp.1 }
      else if isGeomChar c then
        match hpglUpd cosD sinD angle c st with
        | none => none
        | some st2 => hpglLoop cosD sinD angle fuel ws (pos + 1) st2
      else hpglLoop cosD sinD angle fuel (ws.filter (fun a => a != c)) pos st
    else some (ws, st)

/-- One invocation of the closure made by `makeLogo2Hpgl` on a fresh closure:
remove the cancelling turn pairs once, emit the initial pen-up move to the
origin (line 952), interpret, and append the terminating `;` (line 1004). -/
def makeLogo2Hpgl (cosD sinD : Q → Q) (ws : List Char) (xOrigin : Q) (angle : Q) :
    Option (List Char × HpglState) :=
  let ws0 := removePairs ws
  let st0 : HpglState :=
    ⟨⟨Q.ofInt 0, xOrigin, Q.ofInt 0⟩, [], Q.ofInt 0, Q.ofInt 0, Q.ofInt 0, Q.ofInt 0, "", ""⟩
  let st1 := hpglEmit 'f' xOrigin (Q.ofInt 0) st0
  (hpglLoop cosD sinD angle (ws0.length + 1) ws0 0 st1).map
    (fun p => (p.1, { p.2 with out := p.2.out ++ ";" }))

/-- Number of (possibly overlapping) occurrences of `pat` in a string. -/
def countSub (pat : List Char) : List Char → Nat
  | [] => 0
  | c :: rest => (if pat.isPrefixOf (c :: rest) then 1 else 0) + countSub pat rest

/-- The expected HP-GL/2 body for the stream `FFF` at angle 90 from origin 0:
one pen-up move to the origin, then a single coalesced `PD` run carrying the
three coordinate pairs of the three unit moves. -/
def hpglFFFExpected : String :=
  "PU0.000000,0.000000;\nPD1.000000,0.000000,2.000000,0.000000,3.000000,0.000000;"

/-
Helper lemmas.
-/

/-- A string with no adjacent cancelling pair is a fixed point of the
turn-pair removal pass. -/
theorem removePairs_of_noCancel (s : List Char) (h : noCancelPair s = true) :
    removePairs s = s := by
  induction s using removePairs.induct with
  | case1 => rfl
  | case2 c => rfl
  | case3 c1 c2 rest hpair ih =>
    exfalso
    rcases hpair with ⟨e1, e2⟩ | ⟨e1, e2⟩ <;> subst e1 <;> subst e2 <;>
      simp [noCancelPair] at h
  | case4 c1 c2 rest hpair ih =>
    rw [noCancelPair, Bool.and_eq_true] at h
    rw [removePairs, if_neg hpair, ih h.2]

/-- `makeConvert2Gnuplot` never touches the branch stack. -/
theorem emitMove_stack (c : Char) (x y : Q) (st : GnuplotState) :
    (emitMove c x y st).stack = st.stack := by
  unfold emitMove
  cases h : st.polyAcc <;> simp [h] <;> split <;> rfl

/-- `makeConvert2Gnuplot` never touches the turtle. -/
theorem emitMove_turtle (c : Char) (x y : Q) (st : GnuplotState) :
    (emitMove c x y st).turtle = st.turtle := by
  unfold emitMove
  cases h : st.polyAcc <;> simp [h] <;> split <;> rfl

/-- A forward move never touches the branch stack. -/
theorem moveF_stack (cosD sinD : Q → Q) (c : Char) (st : GnuplotState) :
    (moveF cosD sinD c st).stack = st.stack := by
  simp only [moveF]
  rw [emitMove_stack]
  split_ifs <;> rfl

/-- If every character of the working string has its own `case` in the
compiler's `switch` (no variables, no inline headings), the compilation loop
never modifies the working string. -/
theorem logoLoop_const (cosD sinD : Q → Q) (angle : Q) :
    ∀ (fuel : Nat) (ws : List Char) (pos : Nat) (st : GnuplotState),
      (∀ c ∈ ws, isGeomChar c = true) → ∀ r : List Char × GnuplotState,
      logoLoop cosD sinD angle fuel ws pos st = some r → r.1 = ws := by
  intro fuel
  induction fuel with
  | zero =>
    intro ws pos st hws r h
    simp [logoLoop] at h
  | succ n ih =>
    intro ws pos st hws r h
    rw [logoLoop] at h
    by_cases hp : pos < ws.length
    · rw [dif_pos hp] at h
      have hc : isGeomChar (ws.get ⟨pos, hp⟩) = true :=
        hws _ (List.get_mem ws pos hp)
      have hcp : ¬ (ws.get ⟨pos, hp⟩ = '(') := by
        intro e
        rw [e] at hc
        simp [isGeomChar] at hc
      rw [if_neg hcp, if_pos hc] at h
      cases hu : updState cosD sinD angle (ws.get ⟨pos, hp⟩) st with
      | none => rw [hu] at h; simp at h
      | some st2 =>
        rw [hu] at h
        exact ih ws (pos + 1) st2 hws r h
    · rw [dif_neg hp] at h
      cases h
      rfl

/-- With an empty rule table the variable branch either hits the Go panic in a
context scan or keeps the symbol unchanged. -/
theorem hhRewriteVar_empty (rev : List Char) (c : Char) (sfx : List Char) :
    hhRewriteVar [] rev c sfx = none ∨ hhRewriteVar [] rev c sfx = some [c] := by
  unfold hhRewriteVar
  cases getContextLHSrev rev <;> cases getContextRHS sfx <;> simp [lookupRule]

/-- With an empty rule table, one generation over symbols without `+`/`-`
reproduces its input whenever it returns a result. -/
theorem hhScan_empty (cs : List Char)
    (hcs : ∀ c ∈ cs, c = '0' ∨ c = '1' ∨ c = 'F' ∨ c = '$' ∨ c = '[' ∨ c = ']') :
    ∀ (rev out : List Char), hhScan [] rev cs = some out → out = cs := by
  induction cs with
  | nil =>
    intro rev out h
    simp [hhScan] at h
    exact h
  | cons c rest ih =>
    intro rev out h
    have hrest : ∀ x ∈ rest, x = '0' ∨ x = '1' ∨ x = 'F' ∨ x = '$' ∨ x = '[' ∨ x = ']' :=
      fun x hx => hcs x (List.mem_cons_of_mem c hx)
    rw [hhScan] at h
    rcases hcs c (List.mem_cons_self c rest) with e | e | e | e | e | e <;> subst e <;>
      simp +decide only [reduceIte] at h
    case _ =>
      rcases hhRewriteVar_empty rev '0' rest with he | he <;> rw [he] at h
      · simp at h
      · simp [Option.map_eq_some'] at h
        obtain ⟨a, ha, rfl⟩ := h
        rw [ih hrest _ a ha]
    case _ =>
      rcases hhRewriteVar_empty rev '1' rest with he | he <;> rw [he] at h
      · simp at h
      · simp [Option.map_eq_some'] at h
        obtain ⟨a, ha, rfl⟩ := h
        rw [ih hrest _ a ha]
    all_goals
      simp [Option.map_eq_some'] at h
      obtain ⟨a, ha, rfl⟩ := h
      rw [ih hrest _ a ha]

/-- Iterating the empty-table generation any number of times is the identity
whenever it returns a result. -/
theorem hhIter_empty (axm : List Char)
    (hcs : ∀ c ∈ axm, c = '0' ∨ c = '1' ∨ c = 'F' ∨ c = '$' ∨ c = '[' ∨ c = ']') :
    ∀ (order : Nat) (s : List Char), hhIter [] order axm = some s → s = axm := by
  intro order
  induction order with
  | zero =>
    intro s h
    simp [hhIter] at h
    exact h.symm
  | succ n ih =>
    intro s h
    rw [hhIter] at h
    cases hs : hhScan [] [] axm with
    | none => rw [hs] at h; simp at h
    | some s2 =>
      rw [hs] at h
      have e := hhScan_empty axm hcs [] s2 hs
      subst e
      exact ih s h

/-- A left-context scan yields the empty context or a single `0`/`1`. -/
theorem ctxLHSLoop_shape : ∀ (fuel : Nat) (l r : List Char),
    ctxLHSLoop fuel l = some r → r = [] ∨ r = ['0'] ∨ r = ['1'] := by
  intro fuel
  induction fuel with
  | zero =>
    intro l r h
    cases l with
    | nil => simp [ctxLHSLoop] at h; left; exact h
    | cons c cs => simp [ctxLHSLoop] at h
  | succ n ih =>
    intro l r h
    cases l with
    | nil => simp [ctxLHSLoop] at h; left; exact h
    | cons c cs =>
      rw [ctxLHSLoop] at h
      split_ifs at h with h1 h2 h3
      · exact ih cs r h
      · cases hs : lhsSkip 1 cs with
        | none => rw [hs] at h; exact absurd h (by simp)
        | some cs2 => rw [hs] at h; exact ih cs2 r h
      · rw [Option.some_inj] at h
        rcases h3 with e | e <;> subst e <;> subst h <;> simp

/-- A right-context scan yields the empty context or a single `0`/`1`. -/
theorem ctxRHSLoop_shape : ∀ (fuel : Nat) (l r : List Char),
    ctxRHSLoop fuel l = some r → r = [] ∨ r = ['0'] ∨ r = ['1'] := by
  intro fuel
  induction fuel with
  | zero =>
    intro l r h
    cases l with
    | nil => simp [ctxRHSLoop] at h; left; exact h
    | cons c cs => simp [ctxRHSLoop] at h
  | succ n ih =>
    intro l r h
    cases l with
    | nil => simp [ctxRHSLoop] at h; left; exact h
    | cons c cs =>
      rw [ctxRHSLoop] at h
      split_ifs at h with h1 h2 h3 h4
      · exact ih cs r h
      · rw [Option.some_inj] at h; subst h; left; rfl
      · cases hs : rhsSkip 1 cs with
        | none => rw [hs] at h; exact absurd h (by simp)
        | some cs2 => rw [hs] at h; exact ih cs2 r h
      · rw [Option.some_inj] at h
        rcases h4 with e | e <;> subst e <;> subst h <;> simp

/-- Every key passing configuration-time validation has exactly nine
characters. -/
theorem keyValid_length (k : List Char) (h : keyValid k = true) : k.length = 9 := by
  unfold keyValid at h
  split at h
  · rfl
  · exact absurd h (by simp)

/-- In a validated table, a key whose length is not nine can never be found. -/
theorem lookupRule_miss (rules : List (List Char × List Char)) (key : List Char)
    (hv : rulesValid rules = true) (hk : key.length ≠ 9) : lookupRule rules key = none := by
  induction rules with
  | nil => rfl
  | cons kv rest ih =>
    rw [rulesValid, List.all_cons, Bool.and_eq_true] at hv
    rw [lookupRule, if_neg]
    · exact ih (by rw [rulesValid]; exact hv.2)
    · intro e
      exact hk (e ▸ keyValid_length kv.1 (Bool.and_eq_true _ _ ▸ hv.1).1)

/-- Length of a built triple key. -/
theorem mkKey_length (l : List Char) (c : Char) (r : List Char) :
    (mkKey l c r).length = l.length + 7 + r.length := by
  simp [mkKey]
  omega

/-- Total number of selector entries. -/
theorem buildSelectorsAux_length : ∀ (ws : List Int) (k : Nat),
    (buildSelectorsAux k ws).length = (ws.map Int.toNat).sum := by
  intro ws
  induction ws with
  | nil => intro k; rfl
  | cons w rest ih => intro k; simp [buildSelectorsAux, ih]

/-- Selector entries index the weight list. -/
theorem buildSelectorsAux_mem : ∀ (ws : List Int) (k j : Nat),
    j ∈ buildSelectorsAux k ws → k ≤ j ∧ j < k + ws.length := by
  intro ws
  induction ws with
  | nil => intro k j h; simp [buildSelectorsAux] at h
  | cons w rest ih =>
    intro k j h
    rw [buildSelectorsAux] at h
    rcases List.mem_append.mp h with h2 | h2
    · have e := List.eq_of_mem_replicate h2
      subst e
      simp
    · have := ih (k + 1) j h2
      constructor <;> [omega; (simp; omega)]

/-- Rule `i` owns exactly `weight_i` selector entries. -/
theorem buildSelectorsAux_count : ∀ (ws : List Int) (i k : Nat) (w : Int),
    ws.get? i = some w → (buildSelectorsAux k ws).count (k + i) = w.toNat := by
  intro ws
  induction ws with
  | nil => intro i k w h; simp at h
  | cons w0 rest ih =>
    intro i k w h
    cases i with
    | zero =>
      rw [List.get?_cons_zero, Option.some_inj] at h
      rw [buildSelectorsAux, List.count_append]
      have h2 : (buildSelectorsAux (k + 1) rest).count (k + 0) = 0 := by
        rw [List.count_eq_zero]
        intro hmem
        have := buildSelectorsAux_mem rest (k + 1) (k + 0) hmem
        omega
      rw [h2]
      simp [List.count_replicate_self, h]
    | succ i2 =>
      rw [List.get?_cons_succ] at h
      rw [buildSelectorsAux, List.count_append]
      have e : k + (i2 + 1) = k + 1 + i2 := by omega
      rw [e]
      have h1 : (List.replicate w0.toNat k).count (k + 1 + i2) = 0 := by
        rw [List.count_eq_zero]
        intro hmem
        have := List.eq_of_mem_replicate hmem
        omega
      have h2 : (buildSelectorsAux (k + 1) rest).count (k + 1 + i2) = w.toNat :=
        ih i2 (k + 1) w h
      rw [h1, h2]
      omega

/-- One stochastic generation cannot fail when the selector pool is non-empty
and every selector indexes the rules list. -/
theorem stochOne_some (rules : List (List Char)) (selectors : List Nat)
    (hne : selectors ≠ []) (hlt : ∀ k ∈ selectors, k < rules.length) :
    ∀ (cs : List Char) (g : RandState),
      ∃ out g2, stochOne rules selectors cs g = (some out, g2) := by
  intro cs
  induction cs with
  | nil => intro g; exact ⟨[], g, rfl⟩
  | cons c rest ih =>
    intro g
    simp only [stochOne]
    by_cases hF : c = 'F'
    · rw [if_pos hF]
      have hlen0 : 0 < selectors.length := List.length_pos.mpr hne
      have hd : (randIntn selectors.length g).1 < selectors.length := Nat.mod_lt _ hlen0
      rw [List.get?_eq_get hd]
      simp only []
      have hk : selectors.get ⟨(randIntn selectors.length g).1, hd⟩ < rules.length :=
        hlt _ (List.get_mem _ _ _)
      rw [List.get?_eq_get hk]
      obtain ⟨out, g2, hrec⟩ := ih (randIntn selectors.length g).2
      rw [hrec]
      exact ⟨_, g2, rfl⟩
    · rw [if_neg hF]
      obtain ⟨out, g2, hrec⟩ := ih g
      rw [hrec]
      exact ⟨_, g2, rfl⟩

/-- A whole stochastic derivation cannot fail under the same conditions. -/
theorem stochRun_some (rules : List (List Char)) (selectors : List Nat)
    (hne : selectors ≠ []) (hlt : ∀ k ∈ selectors, k < rules.length) :
    ∀ (order : Nat) (s : List Char) (g : RandState),
      ∃ out g2, stochRun rules selectors order s g = (some out, g2) := by
  intro order
  induction order with
  | zero => intro s g; exact ⟨s, g, rfl⟩
  | succ n ih =>
    intro s g
    rw [stochRun]
    obtain ⟨s2, g2, h1⟩ := stochOne_some rules selectors hne hlt s g
    rw [h1]
    exact ih s2 g2

/-- Advancing two aligned generator states keeps them aligned. -/
theorem randAligned_next (g g2 : RandState) (h : alignedFrom g g2) :
    alignedFrom ⟨g.stream, g.idx + 1⟩ ⟨g2.stream, g2.idx + 1⟩ := by
  intro k
  show g.stream (g.idx + 1 + k) = g2.stream (g2.idx + 1 + k)
  have e1 : g.idx + 1 + k = g.idx + (k + 1) := by omega
  have e2 : g2.idx + 1 + k = g2.idx + (k + 1) := by omega
  rw [e1, e2]
  exact h (k + 1)

/-- One stochastic generation is a function of the forward random stream: two
aligned generator states produce the same result and stay aligned. -/
theorem stochOne_aligned (rules : List (List Char)) (selectors : List Nat) :
    ∀ (cs : List Char) (g g2 : RandState), alignedFrom g g2 →
      (stochOne rules selectors cs g).1 = (stochOne rules selectors cs g2).1 ∧
      alignedFrom (stochOne rules selectors cs g).2 (stochOne rules selectors cs g2).2 := by
  intro cs
  induction cs with
  | nil => intro g g2 h; exact ⟨rfl, h⟩
  | cons c rest ih =>
    intro g g2 h
    have hnext := randAligned_next g g2 h
    obtain ⟨ihe, iha⟩ := ih ⟨g.stream, g.idx + 1⟩ ⟨g2.stream, g2.idx + 1⟩ hnext
    simp only [stochOne, randIntn]
    by_cases hF : c = 'F'
    · rw [if_pos hF, if_pos hF]
      have hdraw : g.stream g.idx = g2.stream g2.idx := by
        have := h 0
        simpa using this
      rw [hdraw]
      cases hget : selectors.get? (g2.stream g2.idx % selectors.length) with
      | none => exact ⟨rfl, hnext⟩
      | some k =>
        simp only [hget]
        cases hg2 : rules.get? k with
        | none => exact ⟨rfl, hnext⟩
        | some rep =>
          simp only [hg2]
          rcases hr1 : stochOne rules selectors rest ⟨g.stream, g.idx + 1⟩ with ⟨o1, r1⟩
          rcases hr2 : stochOne rules selectors rest ⟨g2.stream, g2.idx + 1⟩ with ⟨o2, r2⟩
          rw [hr1, hr2] at ihe iha
          simp only at ihe iha
          subst ihe
          cases o1 with
          | none => exact ⟨rfl, iha⟩
          | some out => exact ⟨rfl, iha⟩
    · rw [if_neg hF, if_neg hF]
      rcases hr1 : stochOne rules selectors rest g with ⟨o1, r1⟩
      rcases hr2 : stochOne rules selectors rest g2 with ⟨o2, r2⟩
      obtain ⟨ihe2, iha2⟩ := ih g g2 h
      rw [hr1, hr2] at ihe2 iha2
      simp only at ihe2 iha2
      subst ihe2
      cases o1 with
      | none => exact ⟨rfl, iha2⟩
      | some out => exact ⟨rfl, iha2⟩

/-- A whole stochastic derivation is a function of the forward random
stream. -/
theorem stochRun_aligned (rules : List (List Char)) (selectors : List Nat) :
    ∀ (order : Nat) (s : List Char) (g g2 : RandState), alignedFrom g g2 →
      (stochRun rules selectors order s g).1 = (stochRun rules selectors order s g2).1 := by
  intro order
  induction order with
  | zero => intro s g g2 h; rfl
  | succ n ih =>
    intro s g g2 h
    obtain ⟨he, ha⟩ := stochOne_aligned rules selectors s g g2 h
    simp only [stochRun]
    rcases hr1 : stochOne rules selectors s g with ⟨o1, r1⟩
    rcases hr2 : stochOne rules selectors s g2 with ⟨o2, r2⟩
    rw [hr1, hr2] at he ha
    simp only at he ha
    subst he
    cases o1 with
    | none => rfl
    | some s2 => exact ih s2 r1 r2 ha

/-- Totality of the fraction order. -/
theorem qble_total (a b : Q) (h : ¬ Q.ble a b = true) : Q.ble b a = true := by
  simp only [Q.ble, decide_eq_true_eq] at h ⊢
  omega

/-- Transitivity of the fraction order (denominators are positive). -/
theorem qble_trans (a b c : Q) (h1 : Q.ble a b = true) (h2 : Q.ble b c = true) :
    Q.ble a c = true := by
  simp only [Q.ble, decide_eq_true_eq] at h1 h2 ⊢
  have ha : (0 : ℤ) < ((a.den : ℕ) : ℤ) := by exact_mod_cast a.den.pos
  have hb : (0 : ℤ) < ((b.den : ℕ) : ℤ) := by exact_mod_cast b.den.pos
  have hc : (0 : ℤ) < ((c.den : ℕ) : ℤ) := by exact_mod_cast c.den.pos
  nlinarith [mul_le_mul_of_nonneg_right h1 hc.le, mul_le_mul_of_nonneg_right h2 ha.le]

/-- `math.Min` keeps an upper bound held by its first argument. -/
theorem qble_min_left (a v b : Q) (h : Q.ble a b = true) : Q.ble (Q.min a v) b = true := by
  unfold Q.min
  split_ifs with hv
  · exact h
  · exact qble_trans v a b (qble_total a v hv) h

/-- One cased character of the dry-run walk keeps `xMin <= 0`. -/
theorem calcUpd_xMin (cosD : Q → Q) (angle : Q) (c : Char) (st st2 : XState)
    (h : calcUpd cosD angle c st = some st2) (hm : Q.ble st.xMin (Q.ofInt 0) = true) :
    Q.ble st2.xMin (Q.ofInt 0) = true := by
  unfold calcUpd at h
  simp only [] at h
  split_ifs at h
  all_goals first
    | (rw [Option.some_inj] at h
       subst h
       first
         | exact hm
         | exact qble_min_left _ _ _ hm)
    | (cases hs : st.stack with
        | nil => rw [hs] at h; exact absurd h (by simp)
        | cons t rest =>
          rw [hs, Option.some_inj] at h
          subst h
          exact hm)

/-- The whole dry-run walk keeps `xMin <= 0` (it starts at 0 and only ever
takes minima). -/
theorem calcLoop_xMin (cosD : Q → Q) (angle : Q) :
    ∀ (fuel : Nat) (ws : List Char) (pos : Nat) (st : XState) (r : List Char × XState),
      calcLoop cosD angle fuel ws pos st = some r →
      Q.ble st.xMin (Q.ofInt 0) = true → Q.ble r.2.xMin (Q.ofInt 0) = true := by
  intro fuel
  induction fuel with
  | zero => intro ws pos st r h hm; simp [calcLoop] at h
  | succ n ih =>
    intro ws pos st r h hm
    rw [calcLoop] at h
    by_cases hp : pos < ws.length
    · rw [dif_pos hp] at h
      by_cases h1 : ws.get ⟨pos, hp⟩ = '('
      · rw [if_pos h1] at h
        cases hph : parseHeadingAt ws pos with
        | none => rw [hph] at h; exact absurd h (by simp)
        | some hp2 =>
          rw [hph] at h
          exact ih ws hp2.2 _ r h hm
      · rw [if_neg h1] at h
        by_cases h2 : isGeomChar (ws.get ⟨pos, hp⟩) = true
        · rw [if_pos h2] at h
          cases hu : calcUpd cosD angle (ws.get ⟨pos, hp⟩) st with
          | none => rw [hu] at h; exact absurd h (by simp)
          | some stb =>
            rw [hu] at h
            exact ih ws (pos + 1) stb r h (calcUpd_xMin cosD angle _ st stb hu hm)
        · rw [if_neg h2] at h
          exact ih _ pos st r h hm
    · rw [dif_neg hp] at h
      cases h
      exact hm

/-- The gap `|xMin| + 2` is at least the nudge constant 2. -/
theorem qble_two_abs (q : Q) : Q.ble (Q.ofInt 2) (Q.add (Q.abs q) (Q.ofInt 2)) = true := by
  simp only [Q.ble, Q.add, Q.abs, Q.ofInt, decide_eq_true_eq]
  push_cast
  have := abs_nonneg q.num
  nlinarith [q.den.pos]

/-- Adding the gap `|q| + 2` strictly increases any value. -/
theorem qblt_add_gap (x q : Q) :
    Q.blt x (Q.add x (Q.add (Q.abs q) (Q.ofInt 2))) = true := by
  simp only [Q.blt, Q.add, Q.abs, Q.ofInt, decide_eq_true_eq]
  push_cast
  have h1 := abs_nonneg q.num
  have h2 : (0 : ℤ) < ((q.den : ℕ) : ℤ) := by exact_mod_cast q.den.pos
  have h3 : (0 : ℤ) < ((x.den : ℕ) : ℤ) := by exact_mod_cast x.den.pos
  nlinarith [mul_pos (show (0 : ℤ) < |q.num| + 2 * ((q.den : ℕ) : ℤ) by linarith)
    (mul_pos h3 h3)]

/-
Claim theorems.
-/

/-- C1 counterexample: with one rule `"A"` and the longer all-positive weight
list `[1, 1]` (so the claim's hypotheses hold), the extra weight is NOT
ignored: it puts the out-of-range index 1 into the selector pool, and the
derivation of the axiom `"F"` at order 1 dies with an index-out-of-range panic
when the generator draws it. -/
theorem c1_counterexample :
    (Stochastic 1 ['F'] [['A']] [1, 1] ⟨fun _ => 1, 0⟩).1 = none ∧
    (1 : Int) > 0 ∧ ([1, 1] : List Int).length ≥ ([['A']] : List (List Char)).length := by
  refine ⟨?_, by decide, by decide⟩
  rfl

/-- C1 (amended): when the weights list has exactly the rules list's length
(and the other validations hold), the derivation never fails; the selector
pool has `Σ weights` entries, of which exactly `weight_i` carry index `i` and
every entry indexes the rules list — so a uniform draw over the pool replaces
each `F` by rule `i` with probability `weight_i / Σ weights`. -/
theorem c1_theorem (order : Nat) (axm : List Char) (rules : List (List Char))
    (weights : List Int) (g : RandState)
    (hax : axm ≠ []) (hr : rules ≠ []) (hlen : weights.length = rules.length)
    (hw : ∀ w ∈ weights, (0 : ℤ) < w) :
    (∃ s g2, Stochastic order axm rules weights g = (some s, g2)) ∧
    (buildSelectors weights).length = (weights.map Int.toNat).sum ∧
    (∀ i w, weights.get? i = some w → (buildSelectors weights).count i = w.toNat) ∧
    (∀ k ∈ buildSelectors weights, k < rules.length) := by
  have hwne : weights ≠ [] := by
    intro e
    subst e
    exact hr (List.length_eq_zero.mp hlen.symm)
  have hmem : ∀ k ∈ buildSelectors weights, k < rules.length := by
    intro k hk
    have := buildSelectorsAux_mem weights 0 k hk
    omega
  have hne : buildSelectors weights ≠ [] := by
    cases weights with
    | nil => exact absurd rfl hwne
    | cons w0 rest =>
      intro e
      have hlen2 : (buildSelectorsAux 0 (w0 :: rest)).length = 0 := by
        rw [show buildSelectorsAux 0 (w0 :: rest) = buildSelectors (w0 :: rest) from rfl, e]
        rfl
      rw [buildSelectorsAux_length] at hlen2
      simp at hlen2
      have hw0 := hw w0 (List.mem_cons_self w0 rest)
      omega
  refine ⟨?_, buildSelectorsAux_length weights 0, ?_, hmem⟩
  · unfold Stochastic
    have hcond : ¬ (axm = [] ∨ rules = [] ∨ weights = [] ∨
        weights.length < rules.length ∨ ¬ (∀ w ∈ weights, (0 : ℤ) < w)) := by
      push_neg
      exact ⟨hax, hr, hwne, by omega, hw⟩
    rw [if_neg hcond]
    exact stochRun_some rules _ hne hmem order axm g
  · intro i w hgw
    have := buildSelectorsAux_count weights i 0 w hgw
    simpa using this

/-- C1 witness: a concrete equal-length configuration where the theorem
applies. -/
theorem c1_witness :
    (['F'] : List Char) ≠ [] ∧
    (∃ s g2, Stochastic 1 ['F'] [['A']] [1] ⟨fun _ => 0, 0⟩ = (some s, g2)) :=
  ⟨by decide,
   (c1_theorem 1 ['F'] [['A']] [1] ⟨fun _ => 0, 0⟩ (by decide) (by decide) rfl
     (by decide)).1⟩

/-- C2 counterexample: with an empty rule table the Contextual engine does NOT
return every axiom over its alphabet unchanged: the turn symbols are swapped
unconditionally each generation, so the valid axiom `"+"` derives to `"-"` at
order 1. -/
theorem c2_counterexample :
    HogewegHesper 1 ['+'] [] = some ['-'] ∧
    HogewegHesper 1 ['+'] [] ≠ some ['+'] := by decide

/-- C2 (amended): with an empty rule table every lookup misses, so each
generation copies `0`, `1`, `F`, `$`, `[`, `]` unchanged while still swapping
`+` with `-`; hence for a valid axiom containing no turn symbol, whenever the
derivation returns a result, the result is the axiom, at every order. -/
theorem c2_theorem (order : Nat) (axm : List Char)
    (hcs : ∀ c ∈ axm, c = '0' ∨ c = '1' ∨ c = 'F' ∨ c = '$' ∨ c = '[' ∨ c = ']')
    (s : List Char) (h : HogewegHesper order axm [] = some s) : s = axm := by
  unfold HogewegHesper at h
  by_cases he : axm = []
  · rw [if_pos (Or.inl he)] at h
    exact absurd h (by simp)
  · rw [if_neg (by simp +decide [rulesValid, he])] at h
    exact hhIter_empty axm hcs order s h

/-- C2 witness: the turn-free axiom `"0F1"` is reproduced at order 2. -/
theorem c2_witness : (∀ c ∈ (['0','F','1'] : List Char),
      c = '0' ∨ c = '1' ∨ c = 'F' ∨ c = '$' ∨ c = '[' ∨ c = ']') ∧
    (['0','F','1'] : List Char) = ['0','F','1'] :=
  ⟨by decide, c2_theorem 2 ['0','F','1'] (by decide) ['0','F','1'] (by decide)⟩

/-- C3 counterexample: `Plot` passes a pointer to the exported `TurtleCmds`
into the compiler, which removes the `+-` pair and strips the variable `X`
in place: after the call the caller sees `"F"`, not the original `"F+-X"`. -/
theorem c3_counterexample :
    plotTurtleCmdsAfter (fun _ => Q.ofInt 0) (fun _ => Q.ofInt 0) ['F','+','-','X']
        (Q.ofInt 90) = some ['F'] ∧
    some (['F'] : List Char) ≠ some ['F','+','-','X'] := by
  refine ⟨?_, by decide⟩
  rfl

/-- C3 (amended): the compilation pass's rewriting of the working string IS
visible to the caller of `Plot` through the exported `TurtleCmds`; a generated
string that contains no adjacent cancelling turn pair and only drawing-constant
symbols is rewritten by neither the pair-removal pass nor the variable
stripping, so it survives the call unchanged. -/
theorem c3_theorem (cosD sinD : Q → Q) (angle : Q) (tc s : List Char)
    (h1 : noCancelPair tc = true) (h2 : ∀ c ∈ tc, isGeomChar c = true)
    (h3 : plotTurtleCmdsAfter cosD sinD tc angle = some s) : s = tc := by
  simp only [plotTurtleCmdsAfter, makeLogo2Gnuplot] at h3
  rw [removePairs_of_noCancel tc h1] at h3
  obtain ⟨r, hrun, hs⟩ := Option.map_eq_some'.mp h3
  rw [← hs]
  exact logoLoop_const cosD sinD angle _ tc 0 _ h2 r hrun

/-- C3 witness: the constants-only string `"F+F"` survives `Plot`. -/
theorem c3_witness :
    noCancelPair ['F','+','F'] = true ∧ (['F','+','F'] : List Char) = ['F','+','F'] :=
  ⟨by decide,
   c3_theorem (fun _ => Q.ofInt 0) (fun _ => Q.ofInt 0) (Q.ofInt 90) ['F','+','F']
     ['F','+','F'] (by decide) (by decide) (by decide)⟩

/-- C4 counterexample: `Stochastic` has no seed parameter and draws from the
shared package-global generator, so two derivations with identical order,
axiom, rules and weights inside one process (same init seed) consume
successive parts of the stream and can differ: here the first yields `"A"`
and the second, run from the generator state the first left behind, `"B"`. -/
theorem c4_counterexample :
    (Stochastic 1 ['F'] [['A'], ['B']] [1, 1] ⟨fun n => n, 0⟩).1 = some ['A'] ∧
    (Stochastic 1 ['F'] [['A'], ['B']] [1, 1]
      (Stochastic 1 ['F'] [['A'], ['B']] [1, 1] ⟨fun n => n, 0⟩).2).1 = some ['B'] ∧
    some (['A'] : List Char) ≠ some ['B'] :=
  ⟨rfl, rfl, by decide⟩

/-- C4 (amended): reproducibility holds relative to the global generator's
stream, not to a per-call seed: two derivations with the same order, axiom,
rules and weights whose generator states will produce the same forward stream
of draws (as after re-seeding the global generator identically, the only
override the package allows) produce the same output symbol string. -/
theorem c4_theorem (order : Nat) (axm : List Char) (rules : List (List Char))
    (weights : List Int) (g g2 : RandState) (h : alignedFrom g g2) :
    (Stochastic order axm rules weights g).1 = (Stochastic order axm rules weights g2).1 := by
  unfold Stochastic
  split_ifs
  · rfl
  · exact stochRun_aligned rules (buildSelectors weights) order axm g g2 h

/-- C4 witness: two aligned generator states (same stream, consumed up to the
same point) give the same derivation. -/
theorem c4_witness :
    (Stochastic 1 ['F'] [['A']] [1] ⟨fun _ => 0, 0⟩).1 =
      (Stochastic 1 ['F'] [['A']] [1] ⟨fun _ => 0, 5⟩).1 :=
  c4_theorem 1 ['F'] [['A']] [1] ⟨fun _ => 0, 0⟩ ⟨fun _ => 0, 5⟩ (fun _ => rfl)

/-- C5 counterexample: the preprocessing is one non-overlapping left-to-right
pass, not a normalization to a fixed point: on `"++--"` it removes only the
middle pair, leaving `"+-"`, which still contains an adjacent cancelling pair,
and a second application removes it — so the pass is not idempotent. -/
theorem c5_counterexample :
    removePairs ['+','+','-','-'] = ['+','-'] ∧
    noCancelPair (removePairs ['+','+','-','-']) = false ∧
    removePairs (removePairs ['+','+','-','-']) ≠ removePairs ['+','+','-','-'] := by
  decide

/-- C5 (amended): the turn-pair preprocessing is a single left-to-right
non-overlapping removal pass of `+-` and `-+`; on a string that already
contains no adjacent cancelling pair it is the identity, and hence idempotent
on such strings, but in general its result can contain a new adjacent pair and
a second application can differ. -/
theorem c5_theorem (s : List Char) (h : noCancelPair s = true) :
    removePairs s = s ∧ removePairs (removePairs s) = removePairs s := by
  have h1 := removePairs_of_noCancel s h
  exact ⟨h1, by rw [h1, h1]⟩

/-- C5 witness: the pair-free string `"F+F"` is untouched. -/
theorem c5_witness :
    noCancelPair ['F','+','F'] = true ∧
    (removePairs ['F','+','F'] = ['F','+','F'] ∧
      removePairs (removePairs ['F','+','F']) = removePairs ['F','+','F']) :=
  ⟨by decide, c5_theorem ['F','+','F'] (by decide)⟩

/-- C6: for every production angle, compiling `"F[+F]F"` leaves the turtle and
the branch stack after the `]` exactly as they were saved at the matching `[`
(the compile of `"F[+F]F"` ends with the same turtle and stack as `"FF"`,
which never enters the branch), and compiling an unmatched `]` on an empty
stack produces no result (the fatal stack underflow). -/
theorem c6_theorem (cosD sinD : Q → Q) (angle : Q) :
    (makeLogo2Gnuplot cosD sinD ['F','[','+','F',']','F'] (Q.ofInt 0) angle).map
        (fun p => (p.2.turtle, p.2.stack)) =
      (makeLogo2Gnuplot cosD sinD ['F','F'] (Q.ofInt 0) angle).map
        (fun p => (p.2.turtle, p.2.stack)) ∧
    makeLogo2Gnuplot cosD sinD [']'] (Q.ofInt 0) angle = none := by
  refine ⟨?_, rfl⟩
  have h0 : makeLogo2Gnuplot cosD sinD ['F','[','+','F',']','F'] (Q.ofInt 0) angle =
      logoLoop cosD sinD angle 4 ['F','[','+','F',']','F'] 3
        { turtle := ⟨Q.add (Q.ofInt 0) angle, Q.ofInt 1, Q.ofInt 0⟩,
          stack := [⟨Q.ofInt 0, Q.ofInt 1, Q.ofInt 0⟩],
          xMin := Q.ofInt 0, xMax := Q.ofInt 1, yMin := Q.ofInt 0, yMax := Q.ofInt 0,
          polyAcc := none,
          cmds := [PlotCmd.seg (Q.ofInt 0) (Q.ofInt 0) (Q.ofInt 1) (Q.ofInt 0)] } := rfl
  rw [h0]
  have h1 : ∀ st : GnuplotState,
      logoLoop cosD sinD angle 4 ['F','[','+','F',']','F'] 3 st =
      logoLoop cosD sinD angle 3 ['F','[','+','F',']','F'] 4 (moveF cosD sinD 'F' st) :=
    fun st => rfl
  rw [h1]
  have h2 : ∀ st : GnuplotState, st.stack = [⟨Q.ofInt 0, Q.ofInt 1, Q.ofInt 0⟩] →
      logoLoop cosD sinD angle 3 ['F','[','+','F',']','F'] 4 st =
      logoLoop cosD sinD angle 2 ['F','[','+','F',']','F'] 5
        { st with turtle := ⟨Q.ofInt 0, Q.ofInt 1, Q.ofInt 0⟩, stack := [] } := by
    intro st h
    simp +decide [logoLoop, updState, isGeomChar, h]
  rw [h2 _ (by rw [moveF_stack])]
  have h3 : ∀ st : GnuplotState,
      st.turtle = ⟨Q.ofInt 0, Q.ofInt 1, Q.ofInt 0⟩ → st.stack = [] →
      (logoLoop cosD sinD angle 2 ['F','[','+','F',']','F'] 5 st).map
          (fun p => (p.2.turtle, p.2.stack)) =
        some (⟨Q.ofInt 0, Q.ofInt 2, Q.ofInt 0⟩, []) := by
    intro st ht hs
    simp +decide [logoLoop, updState, isGeomChar, moveF, ht, hs, emitMove_turtle,
      emitMove_stack, goMod360, goTrunc360, Q.beq, Q.add, Q.ofInt, Q.max, Q.ble]
  rw [h3 _ rfl rfl]
  simp +decide [makeLogo2Gnuplot, logoLoop, removePairs, updState, moveF, emitMove,
    goMod360, goTrunc360, Q.add, Q.beq, Q.ble, Q.min, Q.max, Q.mul, Q.sub, Q.neg,
    Q.ofInt, isGeomChar]

/-- C7: for every cosine/sine implementation (the exact axis branches never
consult them), compiling `"F+F+F+F"` at angle 90 from origin 0 produces the
four unit axis-aligned segments of the closed unit square — each move changes
exactly one coordinate by exactly 1, the turtle ends at its start position
(0, 0) — and the bounding box is exactly (xMin, xMax, yMin, yMax) =
(0, 1, 0, 1). -/
theorem c7_theorem (cosD sinD : Q → Q) :
    makeLogo2Gnuplot cosD sinD ['F','+','F','+','F','+','F'] (Q.ofInt 0) (Q.ofInt 90) =
      some (['F','+','F','+','F','+','F'],
        ⟨⟨Q.ofInt 270, Q.ofInt 0, Q.ofInt 0⟩, [], Q.ofInt 0, Q.ofInt 1, Q.ofInt 0,
         Q.ofInt 1, none,
         [PlotCmd.seg (Q.ofInt 0) (Q.ofInt 0) (Q.ofInt 1) (Q.ofInt 0),
          PlotCmd.seg (Q.ofInt 1) (Q.ofInt 0) (Q.ofInt 1) (Q.ofInt 1),
          PlotCmd.seg (Q.ofInt 1) (Q.ofInt 1) (Q.ofInt 0) (Q.ofInt 1),
          PlotCmd.seg (Q.ofInt 0) (Q.ofInt 1) (Q.ofInt 0) (Q.ofInt 0)]⟩) := by
  simp +decide [makeLogo2Gnuplot, logoLoop, removePairs, updState, moveF, emitMove,
    goMod360, goTrunc360, Q.add, Q.beq, Q.ble, Q.min, Q.max, Q.mul, Q.sub, Q.neg,
    Q.ofInt, Q.abs, isGeomChar]

/-- C8: whenever the dry-run walk of the next subplot's stream completes, the
gap sent back is exactly the absolute value of the walk's leftmost excursion
plus the nudge constant 2; the excursion is never positive, the gap is at
least 2 and equals exactly 2 when there is no leftward excursion, and the next
origin `xMax + gap` is strictly greater than the previous xMax. -/
theorem c8_theorem (cosD : Q → Q) (nextCmds : List Char) (nextAngle : Q) (xMax : Q)
    (fin : List Char × XState)
    (h : calcXoffsetRun cosD nextCmds nextAngle = some fin) :
    calcXoffset cosD nextCmds nextAngle = some (Q.add (Q.abs fin.2.xMin) (Q.ofInt 2)) ∧
    Q.ble fin.2.xMin (Q.ofInt 0) = true ∧
    Q.ble (Q.ofInt 2) (Q.add (Q.abs fin.2.xMin) (Q.ofInt 2)) = true ∧
    (fin.2.xMin = Q.ofInt 0 → Q.add (Q.abs fin.2.xMin) (Q.ofInt 2) = Q.ofInt 2) ∧
    multiPlotNextOrigin cosD xMax nextCmds nextAngle =
      some (Q.add xMax (Q.add (Q.abs fin.2.xMin) (Q.ofInt 2))) ∧
    Q.blt xMax (Q.add xMax (Q.add (Q.abs fin.2.xMin) (Q.ofInt 2))) = true := by
  refine ⟨?_, ?_, qble_two_abs _, ?_, ?_, qblt_add_gap _ _⟩
  · rw [calcXoffset, h]
    rfl
  · exact calcLoop_xMin cosD nextAngle _ _ 0 _ fin h (by decide)
  · intro e
    rw [e]
    decide
  · rw [multiPlotNextOrigin, calcXoffset, h]
    rfl

/-- C8 witness: a single rightward unit stroke has no leftward excursion, so
the next origin is the previous xMax 5 plus exactly the nudge 2. -/
theorem c8_witness : Q.blt (Q.ofInt 5)
    (Q.add (Q.ofInt 5) (Q.add (Q.abs (Q.ofInt 0)) (Q.ofInt 2))) = true :=
  (c8_theorem (fun _ => Q.ofInt 0) ['F'] (Q.ofInt 90) (Q.ofInt 5)
    (['F'], ⟨⟨Q.ofInt 0, Q.ofInt 1, Q.ofInt 0⟩, [], Q.ofInt 0⟩) (by decide)).2.2.2.2.2

/-- C9: compiling `"FFF"` at angle 90 emits one pen-up move to the origin and
then a single coalesced `PD` run carrying the three coordinate pairs of the
three unit moves — the string `PD` occurs exactly once in the body, not three
times. -/
theorem c9_theorem (cosD sinD : Q → Q) :
    (makeLogo2Hpgl cosD sinD ['F','F','F'] (Q.ofInt 0) (Q.ofInt 90)).map
        (fun p => p.2.out) = some hpglFFFExpected ∧
    countSub ['P','D'] hpglFFFExpected.toList = 1 ∧
    countSub ['P','U'] hpglFFFExpected.toList = 1 := by
  refine ⟨?_, by decide, by decide⟩
  simp +decide [makeLogo2Hpgl, hpglLoop, removePairs, hpglUpd, hpglMoveF, hpglEmit,
    convHpgl, fmtQ, pad6, goMod360, goTrunc360, Q.add, Q.beq, Q.ble, Q.min, Q.max,
    Q.mul, Q.sub, Q.neg, Q.ofInt, isGeomChar, hpglFFFExpected]

/-- C10: in a rule table that passed configuration-time validation every key
has a `0` or `1` on both sides, so a `0`/`1` symbol one of whose context scans
yields the empty context (string start reached on the left, or top of branch
on the right, without meeting a variable) can never match a table entry and is
copied unchanged by the rewrite. -/
theorem c10_theorem (rules : List (List Char × List Char)) (rev sfx : List Char)
    (c : Char) (l r : List Char) (hv : rulesValid rules = true)
    (_hc : c = '0' ∨ c = '1')
    (hl : getContextLHSrev rev = some l) (hr : getContextRHS sfx = some r)
    (hemp : l = [] ∨ r = []) :
    hhRewriteVar rules rev c sfx = some [c] := by
  unfold hhRewriteVar
  rw [hl, hr]
  have hls := ctxLHSLoop_shape rev.length rev l hl
  have hrs := ctxRHSLoop_shape sfx.length sfx r hr
  have hlen : (mkKey l c r).length ≠ 9 := by
    rw [mkKey_length]
    have h1 : l.length ≤ 1 := by rcases hls with e | e | e <;> subst e <;> simp
    have h2 : r.length ≤ 1 := by rcases hrs with e | e | e <;> subst e <;> simp
    rcases hemp with e | e <;> subst e <;> simp <;> omega
  show some ((lookupRule rules (mkKey l c r)).getD [c]) = some [c]
  rw [lookupRule_miss rules _ hv hlen]
  rfl

/-- C10 witness: at the string start (`rev = []`) the left scan yields the
empty context and the symbol `0` is copied even though the validated table has
an entry rewriting `0`. -/
theorem c10_witness :
    hhRewriteVar [(['0',' ','<',' ','0',' ','>',' ','0'], ['1'])] [] '0' ['1'] =
      some ['0'] :=
  c10_theorem [(['0',' ','<',' ','0',' ','>',' ','0'], ['1'])] [] ['1'] '0' [] ['1']
    (by decide) (Or.inl rfl) (by decide) (by decide) (Or.inl rfl)
